import Mathlib

/-!
Shallow embedding of the confusable-homoglyph engine of
teamnsrg/certificate-searcher (package certificate_searcher, Go).
Go strings are modelled by their rune sequences (List Char); Go maps by
association lists or lookup functions; the channel of the concurrent
mutator by the multiset (list) of values sent on it; the fatal
log.Fatalf abort by an Option-valued run.
-/

namespace CertSearcher

/-- `validDomainChar` from the source: period, hyphen, ASCII digits,
lowercase ASCII letters, uppercase ASCII letters. -/
def validDomainChar (r : Char) : Bool :=
  if r = '.' ∨ r = '-' then true
  else if '0' ≤ r ∧ r ≤ '9' then true
  else if 'a' ≤ r ∧ r ≤ 'z' then true
  else if 'A' ≤ r ∧ r ≤ 'Z' then true
  else false

/-- The loop of `replaceRunes` (source lines 633-653).  The Go function
mutates its `base` slice in place while looping over `indexes`; the model
threads that buffer explicitly and returns the pair (final buffer,
replacements collected so far).  At each index the first alternative is
written into the buffer and every further alternative forks a copied
buffer and recurses on the remaining indexes. -/
def rrGo (subs : Nat → List Char) : List Char → List Nat → List Char × List String
  | base, [] => (base, [])
  | base, idx :: rest =>
    match subs idx with
    | [] => rrGo subs base rest
    | s0 :: tail =>
      let base1 := base.set idx s0
      let recs := tail.flatMap fun sub =>
        let p := rrGo subs (base1.set idx sub) rest
        p.2 ++ [String.mk p.1]
      let p2 := rrGo subs base1 rest
      (p2.1, recs ++ p2.2)

/-- `replaceRunes` from the source: the collected replacements followed by
the fully-mutated base buffer (the Go function appends `string(base)` as
its last step; when `indexes` is empty that is its only output). -/
def replaceRunes (base : List Char) (indexes : List Nat) (subs : Nat → List Char) : List String :=
  let p := rrGo subs base indexes
  p.2 ++ [String.mk p.1]

/-- The indexes collected by `GetASCIIHomographs`: positions whose single
rune is a key of the forward table `GLYPH_TO_ASCII`, in scan order. -/
def substitutablePositions (tbl : Char → Option (List Char)) (runes : List Char) : List Nat :=
  (List.range runes.length).filter fun i => (runes[i]?.bind tbl).isSome

/-- The per-index substitution lists (`idxSubstitutions`) collected by
`GetASCIIHomographs`. -/
def subsOf (tbl : Char → Option (List Char)) (runes : List Char) : Nat → List Char :=
  fun i => (runes[i]?.bind tbl).getD []

/-- `GetASCIIHomographs` from the source, parameterized by the frozen
forward table (it only ever consults single-rune keys). -/
def GetASCIIHomographs (tbl : Char → Option (List Char)) (unicodeDomain : String) : List String :=
  replaceRunes unicodeDomain.data
    (substitutablePositions tbl unicodeDomain.data)
    (subsOf tbl unicodeDomain.data)

/-- Go byte length (`len(s)`) of the string holding these runes. -/
def utf8Len (runes : List Char) : Nat := (runes.map Char.utf8Size).sum

/-- `homoglyphPermutations` from the source (lines 671-699), with the
frozen reverse table `ASCII_TO_GLYPH` as `tbl`, collecting the multiset
of candidate strings generated (each is sent on the channel, punycode
encoded, before its continuation task is spawned).  The Go guard
compares `startInd` against the byte length of the string. -/
def homoglyphPermutations (tbl : Char → Option (List Char)) (domain : List Char)
    (startInd depth maxDepth : Nat) : List (List Char) :=
  if h : maxDepth ≤ depth ∨ utf8Len domain ≤ startInd then []
  else
    domain.enum.flatMap fun p =>
      if p.1 < startInd then []
      else
        match tbl p.2 with
        | none => []
        | some asciiValues =>
          asciiValues.flatMap fun homoRune =>
            (domain.set p.1 homoRune) ::
              homoglyphPermutations tbl (domain.set p.1 homoRune) (p.1 + 1) (depth + 1) maxDepth
termination_by maxDepth - depth
decreasing_by simp only [not_or, not_le] at h; omega

/-- A `Mutation` as emitted on the channel: a punycode-encoded string. -/
abbrev Mutation := String

/-- Sequencing of `idna.ToASCII` over the generated candidates; a failed
encode is `log.Fatalf` in the source, modelled as `none` for the whole
run. -/
def encodeAll (encode : List Char → Option String) : List (List Char) → Option (List Mutation)
  | [] => some []
  | s :: rest =>
    match encode s with
    | none => none
    | some p => (encodeAll encode rest).map fun ms => p :: ms

/-- `GenerateASCIIHomographs` from the source: runs the root task at
scan-start 0 and depth 0 and yields the complete stream of mutations as
a list (`none` models the fatal abort on an encoding failure). -/
def GenerateASCIIHomographs (encode : List Char → Option String)
    (tbl : Char → Option (List Char)) (unicodeDomain : List Char)
    (maxHomoglyphSubs : Nat) : Option (List Mutation) :=
  encodeAll encode (homoglyphPermutations tbl unicodeDomain 0 0 maxHomoglyphSubs)

/-- Specification-side operation: replace each listed position of `base`
with the character chosen for it by `f`, used to state the Cartesian
product property of the decoder. -/
def applyChoices (f : Nat → Char) : List Char → List Nat → List Char
  | base, [] => base
  | base, i :: rest => applyChoices f (base.set i (f i)) rest

/-! ### Unfolding lemmas for replaceRunes -/

theorem replaceRunes_nil (base : List Char) (subs : Nat → List Char) :
    replaceRunes base [] subs = [String.mk base] := rfl

theorem replaceRunes_cons_of_empty {subs : Nat → List Char} {idx : Nat}
    (h : subs idx = []) (base : List Char) (rest : List Nat) :
    replaceRunes base (idx :: rest) subs = replaceRunes base rest subs := by
  simp [replaceRunes, rrGo, h]

theorem replaceRunes_cons {subs : Nat → List Char} {idx : Nat} {s0 : Char}
    {tail : List Char} (h : subs idx = s0 :: tail) (base : List Char) (rest : List Nat) :
    replaceRunes base (idx :: rest) subs =
      (tail.flatMap fun sub => replaceRunes ((base.set idx s0).set idx sub) rest subs)
        ++ replaceRunes (base.set idx s0) rest subs := by
  simp [replaceRunes, rrGo, h, List.append_assoc]

/-! ### Decoder lemmas -/

theorem length_of_mem_replaceRunes {subs : Nat → List Char} :
    ∀ (indexes : List Nat) (base : List Char) (s : String),
      s ∈ replaceRunes base indexes subs → s.data.length = base.length := by
  intro indexes
  induction indexes with
  | nil =>
    intro base s hs
    rw [replaceRunes_nil, List.mem_singleton] at hs
    subst hs; rfl
  | cons idx rest ih =>
    intro base s hs
    cases hsub : subs idx with
    | nil =>
      rw [replaceRunes_cons_of_empty hsub] at hs
      exact ih base s hs
    | cons s0 tail =>
      rw [replaceRunes_cons hsub] at hs
      rcases List.mem_append.mp hs with h1 | h2
      · rcases List.mem_flatMap.mp h1 with ⟨sub, _, hmem⟩
        simpa using ih _ _ hmem
      · simpa using ih _ _ h2

theorem replaceRunes_ne_nil (base : List Char) (indexes : List Nat)
    (subs : Nat → List Char) : replaceRunes base indexes subs ≠ [] := by
  simp [replaceRunes]

theorem replaceRunes_length_eq {subs : Nat → List Char} :
    ∀ (indexes : List Nat), (∀ i ∈ indexes, subs i ≠ []) → ∀ (base : List Char),
      (replaceRunes base indexes subs).length
        = (indexes.map fun i => (subs i).length).prod := by
  intro indexes
  induction indexes with
  | nil => intro _ base; simp [replaceRunes_nil]
  | cons idx rest ih =>
    intro hne base
    have hrest : ∀ i ∈ rest, subs i ≠ [] := fun i hi => hne i (List.mem_cons_of_mem _ hi)
    cases hsub : subs idx with
    | nil => exact absurd hsub (hne idx (List.mem_cons_self _ _))
    | cons s0 tail =>
      rw [replaceRunes_cons hsub, List.length_append, List.length_flatMap]
      have hmap : tail.map
            (List.length ∘ fun sub => replaceRunes ((base.set idx s0).set idx sub) rest subs)
          = tail.map fun _ => (rest.map fun i => (subs i).length).prod := by
        refine List.map_congr_left fun sub _ => ?_
        simpa using ih hrest ((base.set idx s0).set idx sub)
      rw [hmap, List.map_const', List.sum_replicate, smul_eq_mul, ih hrest (base.set idx s0)]
      simp [hsub, Nat.succ_mul, Nat.add_comm]

theorem applyChoices_mem_replaceRunes {subs : Nat → List Char} :
    ∀ (indexes : List Nat) (base : List Char) (f : Nat → Char),
      (∀ i ∈ indexes, f i ∈ subs i) →
      String.mk (applyChoices f base indexes) ∈ replaceRunes base indexes subs := by
  intro indexes
  induction indexes with
  | nil => intro base f _; simp [applyChoices, replaceRunes_nil]
  | cons idx rest ih =>
    intro base f hf
    have hidx : f idx ∈ subs idx := hf idx (List.mem_cons_self _ _)
    have hrestf : ∀ i ∈ rest, f i ∈ subs i := fun i hi => hf i (List.mem_cons_of_mem _ hi)
    cases hsub : subs idx with
    | nil => rw [hsub] at hidx; exact absurd hidx (List.not_mem_nil _)
    | cons s0 tail =>
      rw [replaceRunes_cons hsub]
      rw [hsub] at hidx
      have hstep : applyChoices f base (idx :: rest)
          = applyChoices f (base.set idx (f idx)) rest := rfl
      rcases List.mem_cons.mp hidx with heq | htail
      · refine List.mem_append.mpr (Or.inr ?_)
        rw [hstep, heq]
        exact ih (base.set idx s0) f hrestf
      · refine List.mem_append.mpr (Or.inl ?_)
        refine List.mem_flatMap.mpr ⟨f idx, htail, ?_⟩
        rw [List.set_set, hstep]
        exact ih (base.set idx (f idx)) f hrestf

theorem replaceRunes_sound {subs : Nat → List Char} :
    ∀ (indexes : List Nat), indexes.Nodup → (∀ i ∈ indexes, subs i ≠ []) →
      ∀ (base : List Char), (∀ i ∈ indexes, i < base.length) →
      ∀ s ∈ replaceRunes base indexes subs,
        (∀ j, j ∉ indexes → s.data[j]? = base[j]?)
        ∧ (∀ i ∈ indexes, ∃ c ∈ subs i, s.data[i]? = some c) := by
  intro indexes
  induction indexes with
  | nil =>
    intro _ _ base _ s hs
    rw [replaceRunes_nil, List.mem_singleton] at hs
    subst hs
    exact ⟨fun j _ => rfl, fun i hi => absurd hi (List.not_mem_nil _)⟩
  | cons idx rest ih =>
    intro hnd hne base hlt s hs
    have hndr : rest.Nodup := (List.nodup_cons.mp hnd).2
    have hnir : idx ∉ rest := (List.nodup_cons.mp hnd).1
    have hner : ∀ i ∈ rest, subs i ≠ [] := fun i hi => hne i (List.mem_cons_of_mem _ hi)
    cases hsub : subs idx with
    | nil => exact absurd hsub (hne idx (List.mem_cons_self _ _))
    | cons s0 tail =>
      rw [replaceRunes_cons hsub] at hs
      have main : ∀ sub, sub ∈ subs idx →
          s ∈ replaceRunes (base.set idx sub) rest subs →
          (∀ j, j ∉ idx :: rest → s.data[j]? = base[j]?)
          ∧ (∀ i ∈ idx :: rest, ∃ c ∈ subs i, s.data[i]? = some c) := by
        intro sub hsubmem hmem
        have hltr : ∀ i ∈ rest, i < (base.set idx sub).length := by
          intro i hi; rw [List.length_set]; exact hlt i (List.mem_cons_of_mem _ hi)
        obtain ⟨hfix, hrep⟩ := ih hndr hner (base.set idx sub) hltr s hmem
        constructor
        · intro j hj
          have hj1 : j ≠ idx := fun h => hj (h ▸ (List.mem_cons_self _ _))
          have hj2 : j ∉ rest := fun h => hj (List.mem_cons_of_mem _ h)
          rw [hfix j hj2, List.getElem?_set_ne (fun h => hj1 h.symm)]
        · intro i hi
          rcases List.mem_cons.mp hi with heq | hir
          · subst heq
            refine ⟨sub, hsubmem, ?_⟩
            rw [hfix i hnir, List.getElem?_set_self]
            rw [List.length_set] at *
            exact hlt i (List.mem_cons_self _ _)
          · exact hrep i hir
      rcases List.mem_append.mp hs with h1 | h2
      · rcases List.mem_flatMap.mp h1 with ⟨sub, hsubtail, hmem⟩
        rw [List.set_set] at hmem
        exact main sub (hsub ▸ List.mem_cons_of_mem _ hsubtail) hmem
      · exact main s0 (hsub ▸ (List.mem_cons_self _ _)) h2

theorem substitutablePositions_nodup (tbl : Char → Option (List Char))
    (runes : List Char) : (substitutablePositions tbl runes).Nodup :=
  (List.nodup_range _).filter _

theorem substitutablePositions_lt (tbl : Char → Option (List Char))
    (runes : List Char) : ∀ i ∈ substitutablePositions tbl runes, i < runes.length := by
  intro i hi
  exact List.mem_range.mp (List.mem_filter.mp hi).1

/-- Shared helper: with no forward-table key in the input, the decoder
returns the singleton list holding the input. -/
theorem getASCIIHomographs_of_no_key (tbl : Char → Option (List Char)) (d : String)
    (h : ∀ c ∈ d.data, tbl c = none) : GetASCIIHomographs tbl d = [d] := by
  have hidx : substitutablePositions tbl d.data = [] := by
    rw [substitutablePositions, List.filter_eq_nil_iff]
    intro i hi
    rcases List.mem_range.mp hi with hlt
    have hget : d.data[i]? = some d.data[i] := List.getElem?_eq_some_iff.mpr ⟨hlt, rfl⟩
    simp [hget, h d.data[i] (List.getElem_mem hlt)]
  rw [GetASCIIHomographs, hidx, replaceRunes_nil]

/-! ### Concrete tables used as claim scenarios -/

/-- The forward table of the C1 scenario: Cyrillic а (U+0430) maps to
ASCII a and nothing else is a key. -/
def tblCyrA : Char → Option (List Char) :=
  fun c => if c = 'а' then some ['a'] else none

/-- An everywhere-empty forward table. -/
def tblNone : Char → Option (List Char) := fun _ => none

/-- A two-key forward table with two alternatives per key. -/
def tblTwo : Char → Option (List Char) :=
  fun c => if c = 'a' then some ['x', 'y'] else if c = 'b' then some ['u', 'v'] else none

/-! ### Claims about the decoder -/

/-- C1, counterexample: with the table mapping Cyrillic а to a, the
result of `GetASCIIHomographs "аpple"` does not contain the unmodified
input "аpple" (it is exactly ["apple"]), refuting the claim that the
unmodified input is always included as one output. -/
theorem C1_counterexample :
    "аpple" ∉ GetASCIIHomographs tblCyrA "аpple" := by decide

/-- C1 (amended): the unmodified input is returned when the input has no
substitutable position; when substitutable positions exist every output
replaces each of them with a table alternative, so with the table
mapping Cyrillic а to a, `GetASCIIHomographs "аpple"` is exactly
["apple"]: it contains the fully-decoded "apple" but not the
unsubstituted baseline "аpple". -/
theorem C1_amended :
    GetASCIIHomographs tblCyrA "аpple" = ["apple"]
    ∧ ∀ (tbl : Char → Option (List Char)) (d : String),
        (∀ c ∈ d.data, tbl c = none) → d ∈ GetASCIIHomographs tbl d := by
  constructor
  · decide
  · intro tbl d h
    rw [getASCIIHomographs_of_no_key tbl d h]
    exact List.mem_singleton.mpr rfl

theorem C1_amended_witness :
    (∀ c ∈ ("аpple" : String).data, tblNone c = none)
    ∧ "аpple" ∈ GetASCIIHomographs tblNone "аpple" :=
  ⟨by decide, C1_amended.2 tblNone "аpple" (by decide)⟩

/-- C2: for an input with substitutable positions carrying k₁..kₙ
alternatives each, `GetASCIIHomographs` returns exactly ∏kᵢ candidates;
every candidate of the Cartesian product of the alternatives appears in
the output, and every output keeps the input length, keeps every
non-substitutable position unchanged, and carries one of the listed
alternatives at every substitutable position. -/
theorem C2_cartesian_product (tbl : Char → Option (List Char)) (d : String)
    (hne : ∀ i ∈ substitutablePositions tbl d.data, subsOf tbl d.data i ≠ []) :
    ((GetASCIIHomographs tbl d).length
        = ((substitutablePositions tbl d.data).map fun i => (subsOf tbl d.data i).length).prod)
    ∧ (∀ f : Nat → Char,
        (∀ i ∈ substitutablePositions tbl d.data, f i ∈ subsOf tbl d.data i) →
        String.mk (applyChoices f d.data (substitutablePositions tbl d.data))
          ∈ GetASCIIHomographs tbl d)
    ∧ (∀ s ∈ GetASCIIHomographs tbl d,
        s.data.length = d.data.length
        ∧ (∀ j, j ∉ substitutablePositions tbl d.data → s.data[j]? = d.data[j]?)
        ∧ (∀ i ∈ substitutablePositions tbl d.data,
            ∃ c ∈ subsOf tbl d.data i, s.data[i]? = some c)) := by
  refine ⟨replaceRunes_length_eq _ hne d.data,
          fun f hf => applyChoices_mem_replaceRunes _ d.data f hf,
          fun s hs => ?_⟩
  obtain ⟨hfix, hrep⟩ := replaceRunes_sound _ (substitutablePositions_nodup tbl d.data)
    hne d.data (substitutablePositions_lt tbl d.data) s hs
  exact ⟨length_of_mem_replaceRunes _ d.data s hs, hfix, hrep⟩

theorem C2_witness :
    (∀ i ∈ substitutablePositions tblTwo ("ab" : String).data,
        subsOf tblTwo ("ab" : String).data i ≠ [])
    ∧ (((GetASCIIHomographs tblTwo "ab").length
        = ((substitutablePositions tblTwo ("ab" : String).data).map
            fun i => (subsOf tblTwo ("ab" : String).data i).length).prod)
    ∧ (∀ f : Nat → Char,
        (∀ i ∈ substitutablePositions tblTwo ("ab" : String).data,
          f i ∈ subsOf tblTwo ("ab" : String).data i) →
        String.mk (applyChoices f ("ab" : String).data
            (substitutablePositions tblTwo ("ab" : String).data))
          ∈ GetASCIIHomographs tblTwo "ab")
    ∧ (∀ s ∈ GetASCIIHomographs tblTwo "ab",
        s.data.length = ("ab" : String).data.length
        ∧ (∀ j, j ∉ substitutablePositions tblTwo ("ab" : String).data →
            s.data[j]? = ("ab" : String).data[j]?)
        ∧ (∀ i ∈ substitutablePositions tblTwo ("ab" : String).data,
            ∃ c ∈ subsOf tblTwo ("ab" : String).data i, s.data[i]? = some c))) :=
  ⟨by decide, C2_cartesian_product tblTwo "ab" (by decide)⟩

/-- C9: on an input string none of whose characters is a forward-table
key, `GetASCIIHomographs` returns exactly one result, equal to the
input. -/
theorem C9_no_key_singleton (tbl : Char → Option (List Char)) (d : String)
    (h : ∀ c ∈ d.data, tbl c = none) : GetASCIIHomographs tbl d = [d] :=
  getASCIIHomographs_of_no_key tbl d h

theorem C9_witness :
    (∀ c ∈ ("zzz" : String).data, tblCyrA c = none)
    ∧ GetASCIIHomographs tblCyrA "zzz" = ["zzz"] :=
  ⟨by decide, C9_no_key_singleton tblCyrA "zzz" (by decide)⟩

/-- C10: for every table and every input string (the empty string
included) the decoder returns at least one candidate, and every
candidate has exactly as many runes as the input. -/
theorem C10_nonempty_same_length (tbl : Char → Option (List Char)) (d : String) :
    GetASCIIHomographs tbl d ≠ []
    ∧ ∀ s ∈ GetASCIIHomographs tbl d, s.data.length = d.data.length :=
  ⟨replaceRunes_ne_nil _ _ _, fun s hs => length_of_mem_replaceRunes _ d.data s hs⟩

theorem C10_witness :
    ("xq" ∈ GetASCIIHomographs tblTwo "xq")
    ∧ ("xq" : String).data.length = ("xq" : String).data.length :=
  ⟨by decide, (C10_nonempty_same_length tblTwo "xq").2 "xq" (by decide)⟩

/-! ### Mutator lemmas -/

theorem homoglyphPermutations_eq_nil {tbl : Char → Option (List Char)}
    {domain : List Char} {startInd depth maxDepth : Nat}
    (h : maxDepth ≤ depth ∨ utf8Len domain ≤ startInd) :
    homoglyphPermutations tbl domain startInd depth maxDepth = [] := by
  conv_lhs => rw [homoglyphPermutations]
  rw [dif_pos h]

theorem homoglyphPermutations_eq (tbl : Char → Option (List Char))
    (domain : List Char) (startInd depth maxDepth : Nat)
    (h : ¬(maxDepth ≤ depth ∨ utf8Len domain ≤ startInd)) :
    homoglyphPermutations tbl domain startInd depth maxDepth =
      domain.enum.flatMap fun p =>
        if p.1 < startInd then []
        else
          match tbl p.2 with
          | none => []
          | some asciiValues =>
            asciiValues.flatMap fun homoRune =>
              (domain.set p.1 homoRune) ::
                homoglyphPermutations tbl (domain.set p.1 homoRune) (p.1 + 1) (depth + 1) maxDepth := by
  conv_lhs => rw [homoglyphPermutations]
  rw [dif_neg h]

theorem mem_homoglyphPermutations_iff {tbl : Char → Option (List Char)}
    {domain : List Char} {startInd depth maxDepth : Nat} {s : List Char}
    (h1 : depth < maxDepth) (h2 : startInd < utf8Len domain) :
    s ∈ homoglyphPermutations tbl domain startInd depth maxDepth ↔
      ∃ idx r alts g, startInd ≤ idx ∧ domain[idx]? = some r
        ∧ tbl r = some alts ∧ g ∈ alts
        ∧ (s = domain.set idx g
            ∨ s ∈ homoglyphPermutations tbl (domain.set idx g) (idx + 1) (depth + 1) maxDepth) := by
  rw [homoglyphPermutations_eq tbl domain startInd depth maxDepth (by omega)]
  constructor
  · intro hs
    rcases List.mem_flatMap.mp hs with ⟨p, hp, hmem⟩
    by_cases hlt : p.1 < startInd
    · rw [if_pos hlt] at hmem
      exact absurd hmem (List.not_mem_nil _)
    · rw [if_neg hlt] at hmem
      cases htbl : tbl p.2 with
      | none => rw [htbl] at hmem; exact absurd hmem (List.not_mem_nil _)
      | some alts =>
        rw [htbl] at hmem
        rcases List.mem_flatMap.mp hmem with ⟨g, hg, hmem2⟩
        rcases List.mem_cons.mp hmem2 with heq | hrec
        · exact ⟨p.1, p.2, alts, g, Nat.le_of_not_lt hlt,
            List.mem_enum_iff_getElem?.mp hp, htbl, hg, Or.inl heq⟩
        · exact ⟨p.1, p.2, alts, g, Nat.le_of_not_lt hlt,
            List.mem_enum_iff_getElem?.mp hp, htbl, hg, Or.inr hrec⟩
  · rintro ⟨idx, r, alts, g, hle, hget, htbl, hg, hcase⟩
    refine List.mem_flatMap.mpr ⟨(idx, r), List.mem_enum_iff_getElem?.mpr hget, ?_⟩
    show s ∈ if idx < startInd then []
      else
        match tbl r with
        | none => []
        | some asciiValues =>
          asciiValues.flatMap fun homoRune =>
            (domain.set idx homoRune) ::
              homoglyphPermutations tbl (domain.set idx homoRune) (idx + 1) (depth + 1) maxDepth
    rw [if_neg (Nat.not_lt.mpr hle), htbl]
    refine List.mem_flatMap.mpr ⟨g, hg, ?_⟩
    rcases hcase with heq | hrec
    · exact heq ▸ List.mem_cons_self _ _
    · exact List.mem_cons_of_mem _ hrec

theorem length_le_utf8Len : ∀ runes : List Char, runes.length ≤ utf8Len runes := by
  intro runes
  induction runes with
  | nil => simp [utf8Len]
  | cons c t ih =>
    have := Char.utf8Size_pos c
    simp only [utf8Len, List.map_cons, List.sum_cons, List.length_cons]
    simp only [utf8Len] at ih
    omega

theorem length_of_mem_homoglyphPermutations (tbl : Char → Option (List Char)) :
    ∀ (fuel : Nat) (domain : List Char) (startInd depth maxDepth : Nat),
      maxDepth - depth ≤ fuel →
      ∀ s ∈ homoglyphPermutations tbl domain startInd depth maxDepth,
        s.length = domain.length := by
  intro fuel
  induction fuel with
  | zero =>
    intro domain startInd depth maxDepth hf s hs
    rw [homoglyphPermutations_eq_nil (Or.inl (by omega))] at hs
    exact absurd hs (List.not_mem_nil _)
  | succ fuel ih =>
    intro domain startInd depth maxDepth hf s hs
    by_cases hstop : maxDepth ≤ depth ∨ utf8Len domain ≤ startInd
    · rw [homoglyphPermutations_eq_nil hstop] at hs
      exact absurd hs (List.not_mem_nil _)
    · push_neg at hstop
      rcases (mem_homoglyphPermutations_iff hstop.1 hstop.2).mp hs with
        ⟨idx, r, alts, g, hle, hget, htbl, hg, hcase⟩
      rcases hcase with heq | hrec
      · rw [heq, List.length_set]
      · have := ih (domain.set idx g) (idx + 1) (depth + 1) maxDepth (by omega) s hrec
        rw [this, List.length_set]

theorem prefix_of_mem_homoglyphPermutations (tbl : Char → Option (List Char)) :
    ∀ (fuel : Nat) (domain : List Char) (startInd depth maxDepth : Nat),
      maxDepth - depth ≤ fuel →
      ∀ s ∈ homoglyphPermutations tbl domain startInd depth maxDepth,
        ∀ j < startInd, s[j]? = domain[j]? := by
  intro fuel
  induction fuel with
  | zero =>
    intro domain startInd depth maxDepth hf s hs
    rw [homoglyphPermutations_eq_nil (Or.inl (by omega))] at hs
    exact absurd hs (List.not_mem_nil _)
  | succ fuel ih =>
    intro domain startInd depth maxDepth hf s hs j hj
    by_cases hstop : maxDepth ≤ depth ∨ utf8Len domain ≤ startInd
    · rw [homoglyphPermutations_eq_nil hstop] at hs
      exact absurd hs (List.not_mem_nil _)
    · push_neg at hstop
      rcases (mem_homoglyphPermutations_iff hstop.1 hstop.2).mp hs with
        ⟨idx, r, alts, g, hle, hget, htbl, hg, hcase⟩
      have hne : idx ≠ j := by omega
      rcases hcase with heq | hrec
      · rw [heq, List.getElem?_set_ne hne]
      · have hstep := ih (domain.set idx g) (idx + 1) (depth + 1) maxDepth (by omega) s hrec
        rw [hstep j (by omega), List.getElem?_set_ne hne]

/-- Number of rune positions of `a` at which `b` disagrees with `a`. -/
def diffCount (a b : List Char) : Nat :=
  (List.range a.length).countP fun j => decide (a[j]? ≠ b[j]?)

theorem countP_le_countP_add {α : Type} (l : List α) (p q r : α → Bool)
    (h : ∀ x ∈ l, p x = true → q x = true ∨ r x = true) :
    l.countP p ≤ l.countP q + l.countP r := by
  induction l with
  | nil => simp
  | cons a t ih =>
    have ht := ih fun x hx hp => h x (List.mem_cons_of_mem _ hx) hp
    have hcase : (if p a = true then 1 else 0)
        ≤ (if q a = true then 1 else 0) + ((if r a = true then 1 else 0) : Nat) := by
      by_cases hp : p a = true
      · rcases h a (List.mem_cons_self _ _) hp with hq | hr
        · rw [if_pos hp, if_pos hq]; omega
        · rw [if_pos hp, if_pos hr]; omega
      · rw [if_neg hp]; omega
    simp only [List.countP_cons]
    omega

theorem diffCount_triangle (a b c : List Char) (hab : a.length = b.length) :
    diffCount a c ≤ diffCount a b + diffCount b c := by
  rw [diffCount, diffCount, diffCount, ← hab]
  refine countP_le_countP_add _ _ _ _ ?_
  intro j _ hj
  rw [decide_eq_true_iff] at hj
  by_cases h1 : a[j]? = b[j]?
  · right
    rw [decide_eq_true_iff]
    intro h2
    exact hj (h1.trans h2)
  · left
    rw [decide_eq_true_iff]
    exact h1

theorem diffCount_set_le_one (a : List Char) (idx : Nat) (g : Char) :
    diffCount a (a.set idx g) ≤ 1 := by
  rw [diffCount]
  have h1 : (List.range a.length).countP (fun j => decide (a[j]? ≠ (a.set idx g)[j]?))
      ≤ (List.range a.length).countP fun j => j == idx := by
    refine List.countP_mono_left ?_
    intro j _ hj
    rw [decide_eq_true_iff] at hj
    by_cases hje : j = idx
    · simp [hje]
    · exact absurd (List.getElem?_set_ne (fun h => hje h.symm)).symm hj
  refine h1.trans ?_
  have h2 : (List.range a.length).countP (fun j => j == idx) = (List.range a.length).count idx := by
    rfl
  rw [h2]
  exact List.nodup_iff_count_le_one.mp (List.nodup_range _) idx

theorem one_le_diffCount {a b : List Char} {idx : Nat} (hidx : idx < a.length)
    (h : a[idx]? ≠ b[idx]?) : 1 ≤ diffCount a b := by
  rw [diffCount]
  refine Nat.succ_le_of_lt (List.countP_pos_iff.mpr ?_)
  exact ⟨idx, List.mem_range.mpr hidx, decide_eq_true_iff.mpr h⟩

theorem diffCount_ub_of_mem_homoglyphPermutations (tbl : Char → Option (List Char)) :
    ∀ (fuel : Nat) (domain : List Char) (startInd depth maxDepth : Nat),
      maxDepth - depth ≤ fuel →
      ∀ s ∈ homoglyphPermutations tbl domain startInd depth maxDepth,
        diffCount domain s ≤ maxDepth - depth := by
  intro fuel
  induction fuel with
  | zero =>
    intro domain startInd depth maxDepth hf s hs
    rw [homoglyphPermutations_eq_nil (Or.inl (by omega))] at hs
    exact absurd hs (List.not_mem_nil _)
  | succ fuel ih =>
    intro domain startInd depth maxDepth hf s hs
    by_cases hstop : maxDepth ≤ depth ∨ utf8Len domain ≤ startInd
    · rw [homoglyphPermutations_eq_nil hstop] at hs
      exact absurd hs (List.not_mem_nil _)
    · push_neg at hstop
      rcases (mem_homoglyphPermutations_iff hstop.1 hstop.2).mp hs with
        ⟨idx, r, alts, g, hle, hget, htbl, hg, hcase⟩
      rcases hcase with heq | hrec
      · subst heq
        have := diffCount_set_le_one domain idx g
        omega
      · have htri := diffCount_triangle domain (domain.set idx g) s
          (List.length_set domain idx g).symm
        have hone := diffCount_set_le_one domain idx g
        have hrest := ih (domain.set idx g) (idx + 1) (depth + 1) maxDepth (by omega) s hrec
        omega

theorem one_le_diffCount_of_mem_homoglyphPermutations (tbl : Char → Option (List Char))
    (hident : ∀ r alts, tbl r = some alts → ∀ g ∈ alts, g ≠ r)
    (domain : List Char) (startInd depth maxDepth : Nat) :
    ∀ s ∈ homoglyphPermutations tbl domain startInd depth maxDepth,
      1 ≤ diffCount domain s := by
  intro s hs
  by_cases hstop : maxDepth ≤ depth ∨ utf8Len domain ≤ startInd
  · rw [homoglyphPermutations_eq_nil hstop] at hs
    exact absurd hs (List.not_mem_nil _)
  · push_neg at hstop
    rcases (mem_homoglyphPermutations_iff hstop.1 hstop.2).mp hs with
      ⟨idx, r, alts, g, hle, hget, htbl, hg, hcase⟩
    have hidxlt : idx < domain.length := (List.getElem?_eq_some_iff.mp hget).1
    have hgr : g ≠ r := hident r alts htbl g hg
    have hset : (domain.set idx g)[idx]? = some g := List.getElem?_set_self hidxlt
    have hsidx : s[idx]? = some g := by
      rcases hcase with heq | hrec
      · rw [heq, hset]
      · have := prefix_of_mem_homoglyphPermutations tbl (maxDepth - (depth + 1))
          (domain.set idx g) (idx + 1) (depth + 1) maxDepth (Nat.le_refl _) s hrec idx
          (by omega)
        rw [this, hset]
    refine one_le_diffCount hidxlt ?_
    rw [hget, hsidx]
    intro hcontra
    exact hgr (Option.some.inj hcontra).symm

/-- Specification-side predicate: `b` differs from `a` exactly at the
positions listed in `T`. -/
def differsExactlyAt (a b : List Char) (T : List Nat) : Prop :=
  a.length = b.length ∧ (∀ j ∈ T, b[j]? ≠ a[j]?) ∧ ∀ j, j ∉ T → b[j]? = a[j]?

theorem homoglyphPermutations_complete (tbl : Char → Option (List Char))
    (hident : ∀ r alts, tbl r = some alts → ∀ g ∈ alts, g ≠ r) :
    ∀ (T : List Nat) (domain : List Char) (startInd depth maxDepth : Nat),
      T ≠ [] → T.Sorted (· < ·) →
      (∀ i ∈ T, startInd ≤ i
        ∧ ∃ r alts, domain[i]? = some r ∧ tbl r = some alts ∧ alts ≠ []) →
      T.length ≤ maxDepth - depth →
      ∃ s ∈ homoglyphPermutations tbl domain startInd depth maxDepth,
        differsExactlyAt domain s T := by
  intro T
  induction T with
  | nil => intro _ _ _ _ hne _ _ _; exact absurd rfl hne
  | cons i rest ih =>
    intro domain startInd depth maxDepth _ hsort hT hlen
    obtain ⟨hle, r, alts, hget, htbl, hane⟩ := hT i (List.mem_cons_self _ _)
    cases alts with
    | nil => exact absurd rfl hane
    | cons g gtail =>
      have hidxlt : i < domain.length := (List.getElem?_eq_some_iff.mp hget).1
      have h1 : depth < maxDepth := by
        simp only [List.length_cons] at hlen; omega
      have h2 : startInd < utf8Len domain :=
        Nat.lt_of_lt_of_le (Nat.lt_of_le_of_lt hle hidxlt) (length_le_utf8Len domain)
      have hinotrest : i ∉ rest := fun hmem =>
        absurd ((List.sorted_cons.mp hsort).1 i hmem) (lt_irrefl i)
      have hgr : g ≠ r := hident r _ htbl g (List.mem_cons_self _ _)
      have hnewi : (domain.set i g)[i]? = some g := List.getElem?_set_self hidxlt
      by_cases hrest : rest = []
      · subst hrest
        refine ⟨domain.set i g, (mem_homoglyphPermutations_iff h1 h2).mpr
          ⟨i, r, g :: gtail, g, hle, hget, htbl, List.mem_cons_self _ _, Or.inl rfl⟩,
          (List.length_set domain i g).symm, ?_, ?_⟩
        · intro j hj
          rw [List.mem_singleton] at hj
          subst hj
          rw [hnewi, hget]
          intro hcontra
          exact hgr (Option.some.inj hcontra)
        · intro j hj
          have hne : i ≠ j := fun h => hj (h ▸ List.mem_cons_self _ _)
          exact List.getElem?_set_ne hne
      · obtain ⟨s, hs, hlendiff, hdiffmem, hfix⟩ :=
          ih (domain.set i g) (i + 1) (depth + 1) maxDepth hrest
            (List.sorted_cons.mp hsort).2
            (fun k hk => by
              have hik : i < k := (List.sorted_cons.mp hsort).1 k hk
              obtain ⟨_, rk, altsk, hgetk, htblk, hanek⟩ :=
                hT k (List.mem_cons_of_mem _ hk)
              exact ⟨by omega, rk, altsk,
                by rw [List.getElem?_set_ne (by omega : i ≠ k)]; exact hgetk,
                htblk, hanek⟩)
            (by simp only [List.length_cons] at hlen; omega)
        refine ⟨s, (mem_homoglyphPermutations_iff h1 h2).mpr
          ⟨i, r, g :: gtail, g, hle, hget, htbl, List.mem_cons_self _ _, Or.inr hs⟩,
          (List.length_set domain i g).symm.trans hlendiff, ?_, ?_⟩
        · intro j hj
          rcases List.mem_cons.mp hj with heq | hjr
          · subst heq
            rw [hfix j hinotrest, hnewi, hget]
            intro hcontra
            exact hgr (Option.some.inj hcontra)
          · have hik : i < j := (List.sorted_cons.mp hsort).1 j hjr
            have := hdiffmem j hjr
            rw [List.getElem?_set_ne (by omega : i ≠ j)] at this
            exact this
        · intro j hj
          have hji : i ≠ j := fun h => hj (h ▸ List.mem_cons_self _ _)
          have hjr : j ∉ rest := fun h => hj (List.mem_cons_of_mem _ h)
          rw [hfix j hjr, List.getElem?_set_ne hji]

/-! ### Claims about the mutator -/

/-- C3: with `maxDepth` equal to the number S of substitutable positions
of the domain, the mutator generates, for every non-empty
strictly-increasing list T of substitutable positions (hence of any size
from 1 up to S), at least one candidate differing from the domain at
exactly the positions of T. -/
theorem C3_subset_completeness (tbl : Char → Option (List Char)) (domain : List Char)
    (hident : ∀ r alts, tbl r = some alts → ∀ g ∈ alts, g ≠ r)
    (hval : ∀ r alts, tbl r = some alts → alts ≠ [])
    (T : List Nat) (hTne : T ≠ []) (hTsort : T.Sorted (· < ·))
    (hTsub : ∀ i ∈ T, i ∈ substitutablePositions tbl domain) :
    ∃ s ∈ homoglyphPermutations tbl domain 0 0
        (substitutablePositions tbl domain).length,
      differsExactlyAt domain s T := by
  refine homoglyphPermutations_complete tbl hident T domain 0 0 _ hTne hTsort ?_ ?_
  · intro i hi
    have hmem := hTsub i hi
    rw [substitutablePositions, List.mem_filter] at hmem
    obtain ⟨hrange, hsome⟩ := hmem
    have hlt := List.mem_range.mp hrange
    have hget : domain[i]? = some domain[i] := List.getElem?_eq_some_iff.mpr ⟨hlt, rfl⟩
    rw [hget] at hsome
    simp only [Option.some_bind] at hsome
    cases htbl : tbl domain[i] with
    | none => rw [htbl] at hsome; simp at hsome
    | some alts =>
      exact ⟨Nat.zero_le i, domain[i], alts, hget, htbl, hval _ _ htbl⟩
  · have hsub2 : T ⊆ substitutablePositions tbl domain := fun x hx => hTsub x hx
    have := (hTsort.nodup.subperm hsub2).length_le
    omega

/-- The reverse table of the mutator scenarios: ASCII a can be
impersonated by Cyrillic а. -/
def revAB : Char → Option (List Char) :=
  fun c => if c = 'a' then some ['а'] else none

theorem revAB_ident : ∀ r alts, revAB r = some alts → ∀ g ∈ alts, g ≠ r := by
  intro r alts h g hg
  rw [revAB] at h
  by_cases hr : r = 'a'
  · rw [if_pos hr] at h
    rcases Option.some.inj h with rfl
    rw [List.mem_singleton] at hg
    subst hg hr
    decide
  · rw [if_neg hr] at h
    exact absurd h (Option.noConfusion)

theorem revAB_val : ∀ r alts, revAB r = some alts → alts ≠ [] := by
  intro r alts h
  rw [revAB] at h
  by_cases hr : r = 'a'
  · rw [if_pos hr] at h
    rcases Option.some.inj h with rfl
    decide
  · rw [if_neg hr] at h
    exact absurd h (Option.noConfusion)

theorem C3_witness :
    (∀ i ∈ [0], i ∈ substitutablePositions revAB ("ab" : String).data)
    ∧ ∃ s ∈ homoglyphPermutations revAB ("ab" : String).data 0 0
        (substitutablePositions revAB ("ab" : String).data).length,
      differsExactlyAt ("ab" : String).data s [0] :=
  ⟨by decide, C3_subset_completeness revAB ("ab" : String).data revAB_ident revAB_val
    [0] (by decide) (List.sorted_singleton 0) (by decide)⟩

theorem encodeAll_sound (encode : List Char → Option String) :
    ∀ (l : List (List Char)) (ms : List Mutation), encodeAll encode l = some ms →
      ∀ m ∈ ms, ∃ s ∈ l, encode s = some m := by
  intro l
  induction l with
  | nil =>
    intro ms h m hm
    rw [encodeAll] at h
    rcases Option.some.inj h with rfl
    exact absurd hm (List.not_mem_nil _)
  | cons s rest ih =>
    intro ms h m hm
    rw [encodeAll] at h
    cases henc : encode s with
    | none => rw [henc] at h; exact absurd h (Option.noConfusion)
    | some p =>
      rw [henc] at h
      cases hrest : encodeAll encode rest with
      | none => rw [hrest] at h; exact absurd h (Option.noConfusion)
      | some ms2 =>
        rw [hrest] at h
        rcases Option.some.inj h with rfl
        rcases List.mem_cons.mp hm with heq | hm2
        · exact ⟨s, List.mem_cons_self _ _, heq ▸ henc⟩
        · obtain ⟨s2, hs2, henc2⟩ := ih ms2 hrest m hm2
          exact ⟨s2, List.mem_cons_of_mem _ hs2, henc2⟩

theorem encodeAll_eq_none (encode : List Char → Option String) :
    ∀ l : List (List Char), (∃ s ∈ l, encode s = none) →
      encodeAll encode l = none := by
  intro l
  induction l with
  | nil => intro h; rcases h with ⟨s, hs, _⟩; exact absurd hs (List.not_mem_nil _)
  | cons s rest ih =>
    intro h
    rcases h with ⟨s2, hs2, henc2⟩
    rw [encodeAll]
    rcases List.mem_cons.mp hs2 with heq | hmem
    · subst heq
      rw [henc2]
    · cases henc : encode s with
      | none => rfl
      | some p => rw [ih ⟨s2, hmem, henc2⟩]; rfl

/-- C4: every mutation emitted in a completed run of
`GenerateASCIIHomographs` is the encoding of a candidate differing from
the input in at least 1 and at most `maxDepth` rune positions, and a run
with `maxDepth = 0` emits no mutation at all. -/
theorem C4_depth_bound (encode : List Char → Option String)
    (tbl : Char → Option (List Char)) (domain : List Char) (maxDepth : Nat)
    (hident : ∀ r alts, tbl r = some alts → ∀ g ∈ alts, g ≠ r) :
    (∀ ms, GenerateASCIIHomographs encode tbl domain maxDepth = some ms →
      ∀ m ∈ ms, ∃ s, s ∈ homoglyphPermutations tbl domain 0 0 maxDepth
        ∧ encode s = some m ∧ 1 ≤ diffCount domain s ∧ diffCount domain s ≤ maxDepth)
    ∧ GenerateASCIIHomographs encode tbl domain 0 = some [] := by
  constructor
  · intro ms hms m hm
    obtain ⟨s, hsl, henc⟩ := encodeAll_sound encode _ ms hms m hm
    refine ⟨s, hsl, henc,
      one_le_diffCount_of_mem_homoglyphPermutations tbl hident domain 0 0 maxDepth s hsl, ?_⟩
    have := diffCount_ub_of_mem_homoglyphPermutations tbl maxDepth domain 0 0 maxDepth
      (by omega) s hsl
    omega
  · rw [GenerateASCIIHomographs, homoglyphPermutations_eq_nil (Or.inl (Nat.le_refl 0))]
    rfl

/-- An always-succeeding stand-in for `idna.ToASCII`. -/
def encId : List Char → Option String := fun s => some (String.mk s)

theorem C4_witness :
    (∀ r alts, revAB r = some alts → ∀ g ∈ alts, g ≠ r)
    ∧ ((∀ ms, GenerateASCIIHomographs encId revAB ("ab" : String).data 1 = some ms →
        ∀ m ∈ ms, ∃ s, s ∈ homoglyphPermutations revAB ("ab" : String).data 0 0 1
          ∧ encId s = some m ∧ 1 ≤ diffCount ("ab" : String).data s
          ∧ diffCount ("ab" : String).data s ≤ 1)
      ∧ GenerateASCIIHomographs encId revAB ("ab" : String).data 0 = some []) :=
  ⟨revAB_ident, C4_depth_bound encId revAB ("ab" : String).data 1 revAB_ident⟩

/-- C8: when any generated candidate fails ASCII-Compatible encoding,
the whole run of `GenerateASCIIHomographs` is aborted (`none`), rather
than skipping the candidate and yielding the rest. -/
theorem C8_encode_failure_fatal (encode : List Char → Option String)
    (tbl : Char → Option (List Char)) (domain : List Char) (maxDepth : Nat)
    (h : ∃ s ∈ homoglyphPermutations tbl domain 0 0 maxDepth, encode s = none) :
    GenerateASCIIHomographs encode tbl domain maxDepth = none :=
  encodeAll_eq_none encode _ h

/-- A stand-in for `idna.ToASCII` failing on the candidate "аb". -/
def encFail : List Char → Option String :=
  fun s => if s = ['а', 'b'] then none else some (String.mk s)

theorem hp_ab_mem :
    (['а', 'b'] : List Char) ∈ homoglyphPermutations revAB ("ab" : String).data 0 0 1 :=
  (mem_homoglyphPermutations_iff (by decide) (by decide)).mpr
    ⟨0, 'a', ['а'], 'а', by decide, by decide, by decide, by decide, Or.inl (by decide)⟩

theorem C8_witness :
    (∃ s ∈ homoglyphPermutations revAB ("ab" : String).data 0 0 1, encFail s = none)
    ∧ GenerateASCIIHomographs encFail revAB ("ab" : String).data 1 = none :=
  ⟨⟨['а', 'b'], hp_ab_mem, by decide⟩,
    C8_encode_failure_fatal encFail revAB ("ab" : String).data 1
      ⟨['а', 'b'], hp_ab_mem, by decide⟩⟩

/-! ### Table construction (package init, addStringAscii, addAsciiString) -/

/-- A lowercase domain-valid character per the data-model invariant:
digit, hyphen, period, or a-z. -/
def validLowerDomainChar (c : Char) : Bool :=
  c = '.' ∨ c = '-' ∨ ('0' ≤ c ∧ c ≤ '9') ∨ ('a' ≤ c ∧ c ≤ 'z')

/-- The mutable package state built by `init`: `GLYPH_TO_ASCII`,
`ASCII_TO_GLYPH` and `ASCII_HOMOGLYPHS`, with the Go maps modelled as
association lists. -/
structure TableState where
  glyphToAscii : List (List Char × List Char)
  asciiToGlyph : List (Char × List Char)
  asciiHomoglyphs : List Char
deriving DecidableEq

/-- Association-list lookup (Go map read). -/
def alookup {α β : Type} [DecidableEq α] : List (α × β) → α → Option β
  | [], _ => none
  | (k, v) :: rest, a => if k = a then some v else alookup rest a

/-- Association-list write (Go map write). -/
def aupdate {α β : Type} [DecidableEq α] : List (α × β) → α → β → List (α × β)
  | [], k, v => [(k, v)]
  | (k0, v0) :: rest, k, v =>
    if k0 = k then (k, v) :: rest else (k0, v0) :: aupdate rest k v

def initState : TableState := ⟨[], [], []⟩

/-- The shared append-if-absent map update of both add functions: a
missing key gets the singleton list, a present key gets the value
appended unless already contained. -/
def insertFwd (m : List (List Char × List Char)) (key : List Char) (v : Char) :
    List (List Char × List Char) :=
  match alookup m key with
  | none => aupdate m key [v]
  | some l => if v ∈ l then m else aupdate m key (l ++ [v])

/-- Same update shape for the reverse table. -/
def insertRev (m : List (Char × List Char)) (key : Char) (v : Char) :
    List (Char × List Char) :=
  match alookup m key with
  | none => aupdate m key [v]
  | some l => if v ∈ l then m else aupdate m key (l ++ [v])

/-- The `ASCII_HOMOGLYPHS` append of `addStringAscii`: the Go condition
`len(key) == 1` is on the byte length, so it selects exactly the
single-rune ASCII keys, and `rune(key[0])` is then that rune. -/
def addHomoglyphKey (st : TableState) (key : List Char) : TableState :=
  match key with
  | [c] =>
    if c.toNat ≤ 127 ∧ validDomainChar c = true
    then { st with asciiHomoglyphs := st.asciiHomoglyphs ++ [c] }
    else st
  | _ => st

/-- `addStringAscii` from the source.  `unicode.ToLower` is modelled by
`Char.toLower`: the two agree on every ASCII argument, and the three
data sources only supply ASCII targets.  The `panic` on a non-ASCII
lowered target is modelled as `none`. -/
def addStringAscii (st : TableState) (key : List Char) (ascii : Char) :
    Option TableState :=
  if 127 < ascii.toLower.toNat then none
  else if validDomainChar ascii.toLower = false then some st
  else some { addHomoglyphKey st key with
              glyphToAscii :=
                insertFwd (addHomoglyphKey st key).glyphToAscii key ascii.toLower }

/-- `addAsciiString` from the source, with the same modelling of
`unicode.ToLower` and of the `panic`. -/
def addAsciiString (st : TableState) (ascii glyph : Char) : Option TableState :=
  if 127 < ascii.toLower.toNat then none
  else if validDomainChar ascii.toLower = false then some st
  else some { st with asciiToGlyph := insertRev st.asciiToGlyph ascii.toLower glyph }

/-- One insertion step of `init`: the mimic literal table and the
grouped-characters text file insert each (ascii, glyph) pair into both
tables; the JSON source inserts into the forward table only. -/
inductive BuildOp where
  | pair (ascii glyph : Char)
  | fwdOnly (key : List Char) (ascii : Char)
deriving DecidableEq

def applyOp (st : TableState) : BuildOp → Option TableState
  | .pair ascii glyph =>
    (addStringAscii st [glyph] ascii).bind fun st1 => addAsciiString st1 ascii glyph
  | .fwdOnly key ascii => addStringAscii st key ascii

def buildTables : TableState → List BuildOp → Option TableState
  | st, [] => some st
  | st, op :: rest => (applyOp st op).bind fun st1 => buildTables st1 rest

/-! ### Character lemmas -/

theorem char_toNat_ofNat {n : Nat} (h : n.isValidChar) : (Char.ofNat n).toNat = n := by
  rw [Char.ofNat, dif_pos h]
  simp [Char.ofNatAux, Char.toNat, UInt32.toNat]

theorem char_toLower_eq_of_not_upper {c : Char} (h : ¬(65 ≤ c.toNat ∧ c.toNat ≤ 90)) :
    c.toLower = c := by
  simp only [Char.toLower]
  exact if_neg h

theorem char_toLower_toNat_of_upper {c : Char} (h1 : 65 ≤ c.toNat) (h2 : c.toNat ≤ 90) :
    c.toLower.toNat = c.toNat + 32 := by
  simp only [Char.toLower]
  rw [if_pos ⟨h1, h2⟩]
  exact char_toNat_ofNat (Or.inl (by omega))

theorem char_toLower_not_upper (c : Char) :
    ¬(65 ≤ c.toLower.toNat ∧ c.toLower.toNat ≤ 90) := by
  by_cases h : 65 ≤ c.toNat ∧ c.toNat ≤ 90
  · rw [char_toLower_toNat_of_upper h.1 h.2]
    omega
  · rw [char_toLower_eq_of_not_upper h]
    exact h

theorem char_toLower_toNat_le {c : Char} (h : c.toNat ≤ 127) : c.toLower.toNat ≤ 127 := by
  by_cases hu : 65 ≤ c.toNat ∧ c.toNat ≤ 90
  · rw [char_toLower_toNat_of_upper hu.1 hu.2]
    omega
  · rw [char_toLower_eq_of_not_upper hu]
    exact h

theorem validDomainChar_iff (c : Char) :
    validDomainChar c = true ↔
      (c.toNat = 46 ∨ c.toNat = 45 ∨ (48 ≤ c.toNat ∧ c.toNat ≤ 57)
        ∨ (97 ≤ c.toNat ∧ c.toNat ≤ 122) ∨ (65 ≤ c.toNat ∧ c.toNat ≤ 90)) := by
  have hdot : (c = '.') ↔ (c.toNat ≤ 46 ∧ 46 ≤ c.toNat) := Char.le_antisymm_iff
  have hdash : (c = '-') ↔ (c.toNat ≤ 45 ∧ 45 ≤ c.toNat) := Char.le_antisymm_iff
  have h0 : (('0' : Char) ≤ c ∧ c ≤ '9') ↔ (48 ≤ c.toNat ∧ c.toNat ≤ 57) := Iff.rfl
  have ha : (('a' : Char) ≤ c ∧ c ≤ 'z') ↔ (97 ≤ c.toNat ∧ c.toNat ≤ 122) := Iff.rfl
  have hA : (('A' : Char) ≤ c ∧ c ≤ 'Z') ↔ (65 ≤ c.toNat ∧ c.toNat ≤ 90) := Iff.rfl
  rw [validDomainChar]
  split_ifs with h1 h2 h3 h4
  · refine iff_of_true rfl ?_
    rcases h1 with h | h
    · exact Or.inl (by have := hdot.mp h; omega)
    · exact Or.inr (Or.inl (by have := hdash.mp h; omega))
  · exact iff_of_true rfl (Or.inr (Or.inr (Or.inl (h0.mp h2))))
  · exact iff_of_true rfl (Or.inr (Or.inr (Or.inr (Or.inl (ha.mp h3)))))
  · exact iff_of_true rfl (Or.inr (Or.inr (Or.inr (Or.inr (hA.mp h4)))))
  · refine iff_of_false (by simp) ?_
    intro hcontra
    rcases hcontra with h | h | h | h | h
    · exact h1 (Or.inl (hdot.mpr (by omega)))
    · exact h1 (Or.inr (hdash.mpr (by omega)))
    · exact h2 (h0.mpr h)
    · exact h3 (ha.mpr h)
    · exact h4 (hA.mpr h)

theorem validLowerDomainChar_iff (c : Char) :
    validLowerDomainChar c = true ↔
      (c.toNat = 46 ∨ c.toNat = 45 ∨ (48 ≤ c.toNat ∧ c.toNat ≤ 57)
        ∨ (97 ≤ c.toNat ∧ c.toNat ≤ 122)) := by
  have hdot : (c = '.') ↔ (c.toNat ≤ 46 ∧ 46 ≤ c.toNat) := Char.le_antisymm_iff
  have hdash : (c = '-') ↔ (c.toNat ≤ 45 ∧ 45 ≤ c.toNat) := Char.le_antisymm_iff
  have h0 : (('0' : Char) ≤ c ∧ c ≤ '9') ↔ (48 ≤ c.toNat ∧ c.toNat ≤ 57) := Iff.rfl
  have ha : (('a' : Char) ≤ c ∧ c ≤ 'z') ↔ (97 ≤ c.toNat ∧ c.toNat ≤ 122) := Iff.rfl
  rw [validLowerDomainChar, decide_eq_true_iff]
  constructor
  · intro h
    rcases h with h | h | h | h
    · exact Or.inl (by have := hdot.mp h; omega)
    · exact Or.inr (Or.inl (by have := hdash.mp h; omega))
    · exact Or.inr (Or.inr (Or.inl (h0.mp h)))
    · exact Or.inr (Or.inr (Or.inr (ha.mp h)))
  · intro h
    rcases h with h | h | h | h
    · exact Or.inl (hdot.mpr (by omega))
    · exact Or.inr (Or.inl (hdash.mpr (by omega)))
    · exact Or.inr (Or.inr (Or.inl (h0.mpr h)))
    · exact Or.inr (Or.inr (Or.inr (ha.mpr h)))

theorem validLower_of_valid_toLower (c : Char)
    (h : validDomainChar c.toLower = true) :
    validLowerDomainChar c.toLower = true := by
  rw [validDomainChar_iff] at h
  rw [validLowerDomainChar_iff]
  have hnotup := char_toLower_not_upper c
  omega

theorem not_valid_toLower {c : Char} (h : validDomainChar c = false) :
    validDomainChar c.toLower = false := by
  have hup : ¬(65 ≤ c.toNat ∧ c.toNat ≤ 90) := by
    intro hcontra
    have htrue : validDomainChar c = true :=
      (validDomainChar_iff c).mpr (Or.inr (Or.inr (Or.inr (Or.inr hcontra))))
    rw [h] at htrue
    exact Bool.noConfusion htrue
  rw [char_toLower_eq_of_not_upper hup]
  exact h

/-! ### Association-list and insertion lemmas -/

theorem alookup_aupdate_self {α β : Type} [DecidableEq α] :
    ∀ (m : List (α × β)) (k : α) (v : β), alookup (aupdate m k v) k = some v := by
  intro m k v
  induction m with
  | nil => simp [alookup, aupdate]
  | cons p rest ih =>
    rcases p with ⟨k0, v0⟩
    rw [aupdate]
    by_cases hk : k0 = k
    · rw [if_pos hk, alookup, if_pos rfl]
    · rw [if_neg hk, alookup, if_neg hk]
      exact ih

theorem alookup_aupdate_ne {α β : Type} [DecidableEq α] :
    ∀ (m : List (α × β)) (k k2 : α) (v : β), k2 ≠ k →
      alookup (aupdate m k v) k2 = alookup m k2 := by
  intro m k k2 v hne
  induction m with
  | nil => simp [aupdate, alookup, Ne.symm hne]
  | cons p rest ih =>
    rcases p with ⟨k0, v0⟩
    by_cases hk : k0 = k
    · subst hk
      simp [aupdate, alookup, Ne.symm hne]
    · simp only [aupdate, if_neg hk, alookup]
      by_cases hk2 : k0 = k2
      · rw [if_pos hk2, if_pos hk2]
      · rw [if_neg hk2, if_neg hk2]
        exact ih

theorem mem_insertFwd_self (m : List (List Char × List Char)) (key : List Char)
    (v : Char) : ∃ l, alookup (insertFwd m key v) key = some l ∧ v ∈ l := by
  rw [insertFwd]
  cases halo : alookup m key with
  | none =>
    dsimp only
    exact ⟨[v], alookup_aupdate_self m key [v], List.mem_singleton.mpr rfl⟩
  | some l =>
    dsimp only
    by_cases hv : v ∈ l
    · rw [if_pos hv]
      exact ⟨l, halo, hv⟩
    · rw [if_neg hv]
      exact ⟨l ++ [v], alookup_aupdate_self m key (l ++ [v]),
        List.mem_append.mpr (Or.inr (List.mem_singleton.mpr rfl))⟩

theorem mem_insertFwd_mono (m : List (List Char × List Char)) (key : List Char)
    (v : Char) (k : List Char) (x : Char)
    (h : ∃ l, alookup m k = some l ∧ x ∈ l) :
    ∃ l, alookup (insertFwd m key v) k = some l ∧ x ∈ l := by
  obtain ⟨l0, hl0, hx⟩ := h
  rw [insertFwd]
  by_cases hk : k = key
  · subst hk
    rw [hl0]
    dsimp only
    by_cases hv : v ∈ l0
    · rw [if_pos hv]
      exact ⟨l0, hl0, hx⟩
    · rw [if_neg hv]
      exact ⟨l0 ++ [v], alookup_aupdate_self m k (l0 ++ [v]),
        List.mem_append.mpr (Or.inl hx)⟩
  · cases halo : alookup m key with
    | none =>
      dsimp only
      exact ⟨l0, (alookup_aupdate_ne m key k [v] hk).trans hl0, hx⟩
    | some l =>
      dsimp only
      by_cases hv : v ∈ l
      · rw [if_pos hv]
        exact ⟨l0, hl0, hx⟩
      · rw [if_neg hv]
        exact ⟨l0, (alookup_aupdate_ne m key k (l ++ [v]) hk).trans hl0, hx⟩

theorem insertFwd_values (m : List (List Char × List Char)) (key : List Char)
    (v : Char) (k : List Char) (l : List Char)
    (h : alookup (insertFwd m key v) k = some l) :
    ∀ a ∈ l, (∃ l0, alookup m k = some l0 ∧ a ∈ l0) ∨ a = v := by
  intro a ha
  rw [insertFwd] at h
  by_cases hk : k = key
  · subst hk
    cases halo : alookup m k with
    | none =>
      rw [halo] at h
      dsimp only at h
      rw [alookup_aupdate_self] at h
      rcases Option.some.inj h with rfl
      exact Or.inr (List.mem_singleton.mp ha)
    | some l1 =>
      rw [halo] at h
      dsimp only at h
      by_cases hv : v ∈ l1
      · rw [if_pos hv, halo] at h
        rcases Option.some.inj h with rfl
        exact Or.inl ⟨l1, rfl, ha⟩
      · rw [if_neg hv, alookup_aupdate_self] at h
        rcases Option.some.inj h with rfl
        rcases List.mem_append.mp ha with h1 | h2
        · exact Or.inl ⟨l1, rfl, h1⟩
        · exact Or.inr (List.mem_singleton.mp h2)
  · cases halo : alookup m key with
    | none =>
      rw [halo] at h
      dsimp only at h
      rw [alookup_aupdate_ne m key k [v] hk] at h
      exact Or.inl ⟨l, h, ha⟩
    | some l1 =>
      rw [halo] at h
      dsimp only at h
      by_cases hv : v ∈ l1
      · rw [if_pos hv] at h
        exact Or.inl ⟨l, h, ha⟩
      · rw [if_neg hv, alookup_aupdate_ne m key k (l1 ++ [v]) hk] at h
        exact Or.inl ⟨l, h, ha⟩

theorem mem_insertRev_spec (m : List (Char × List Char)) (key v : Char)
    (a : Char) (l2 : List Char) (h : alookup (insertRev m key v) a = some l2) :
    ∀ g ∈ l2, (∃ l, alookup m a = some l ∧ g ∈ l) ∨ (a = key ∧ g = v) := by
  intro g hg
  rw [insertRev] at h
  by_cases hk : a = key
  · subst hk
    cases halo : alookup m a with
    | none =>
      rw [halo] at h
      dsimp only at h
      rw [alookup_aupdate_self] at h
      rcases Option.some.inj h with rfl
      exact Or.inr ⟨rfl, List.mem_singleton.mp hg⟩
    | some l1 =>
      rw [halo] at h
      dsimp only at h
      by_cases hv : v ∈ l1
      · rw [if_pos hv, halo] at h
        rcases Option.some.inj h with rfl
        exact Or.inl ⟨l1, rfl, hg⟩
      · rw [if_neg hv, alookup_aupdate_self] at h
        rcases Option.some.inj h with rfl
        rcases List.mem_append.mp hg with h1 | h2
        · exact Or.inl ⟨l1, rfl, h1⟩
        · exact Or.inr ⟨rfl, List.mem_singleton.mp h2⟩
  · cases halo : alookup m key with
    | none =>
      rw [halo] at h
      dsimp only at h
      rw [alookup_aupdate_ne m key a [v] hk] at h
      exact Or.inl ⟨l2, h, hg⟩
    | some l1 =>
      rw [halo] at h
      dsimp only at h
      by_cases hv : v ∈ l1
      · rw [if_pos hv] at h
        exact Or.inl ⟨l2, h, hg⟩
      · rw [if_neg hv, alookup_aupdate_ne m key a (l1 ++ [v]) hk] at h
        exact Or.inl ⟨l2, h, hg⟩

/-! ### Specifications of the two add functions -/

theorem addHomoglyphKey_glyphToAscii (st : TableState) (key : List Char) :
    (addHomoglyphKey st key).glyphToAscii = st.glyphToAscii := by
  unfold addHomoglyphKey
  split
  · split <;> rfl
  · rfl

theorem addHomoglyphKey_asciiToGlyph (st : TableState) (key : List Char) :
    (addHomoglyphKey st key).asciiToGlyph = st.asciiToGlyph := by
  unfold addHomoglyphKey
  split
  · split <;> rfl
  · rfl

theorem addStringAscii_spec {st st' : TableState} {key : List Char} {ascii : Char}
    (h : addStringAscii st key ascii = some st') :
    st'.asciiToGlyph = st.asciiToGlyph
    ∧ (validDomainChar ascii.toLower = true →
        ∃ l, alookup st'.glyphToAscii key = some l ∧ ascii.toLower ∈ l)
    ∧ (∀ k x, (∃ l, alookup st.glyphToAscii k = some l ∧ x ∈ l) →
        ∃ l, alookup st'.glyphToAscii k = some l ∧ x ∈ l)
    ∧ (∀ k l, alookup st'.glyphToAscii k = some l → ∀ a ∈ l,
        (∃ l0, alookup st.glyphToAscii k = some l0 ∧ a ∈ l0)
        ∨ (a = ascii.toLower ∧ validDomainChar ascii.toLower = true)) := by
  rw [addStringAscii] at h
  by_cases hpanic : 127 < ascii.toLower.toNat
  · rw [if_pos hpanic] at h
    exact absurd h (Option.noConfusion)
  · rw [if_neg hpanic] at h
    by_cases hvalid : validDomainChar ascii.toLower = false
    · rw [if_pos hvalid] at h
      rcases Option.some.inj h with rfl
      refine ⟨rfl, fun hv => ?_, fun k x hx => hx,
        fun k l hl a ha => Or.inl ⟨l, hl, ha⟩⟩
      rw [hv] at hvalid
      exact absurd hvalid (by decide)
    · have hvalid2 : validDomainChar ascii.toLower = true := by
        cases hb : validDomainChar ascii.toLower with
        | false => exact absurd hb hvalid
        | true => rfl
      rw [if_neg hvalid] at h
      rcases Option.some.inj h with rfl
      refine ⟨addHomoglyphKey_asciiToGlyph st key, fun _ => ?_, fun k x hx => ?_,
        fun k l hl a ha => ?_⟩
      · exact mem_insertFwd_self _ _ _
      · refine mem_insertFwd_mono _ _ _ _ _ ?_
        rw [addHomoglyphKey_glyphToAscii]
        exact hx
      · rcases insertFwd_values (addHomoglyphKey st key).glyphToAscii key
          ascii.toLower k l hl a ha with h1 | h2
        · rw [addHomoglyphKey_glyphToAscii] at h1
          exact Or.inl h1
        · exact Or.inr ⟨h2, hvalid2⟩

theorem addAsciiString_spec {st st' : TableState} {ascii glyph : Char}
    (h : addAsciiString st ascii glyph = some st') :
    st'.glyphToAscii = st.glyphToAscii
    ∧ ∀ a l2, alookup st'.asciiToGlyph a = some l2 → ∀ g ∈ l2,
        (∃ l, alookup st.asciiToGlyph a = some l ∧ g ∈ l)
        ∨ (a = ascii.toLower ∧ g = glyph ∧ validDomainChar ascii.toLower = true) := by
  rw [addAsciiString] at h
  by_cases hpanic : 127 < ascii.toLower.toNat
  · rw [if_pos hpanic] at h
    exact absurd h (Option.noConfusion)
  · rw [if_neg hpanic] at h
    by_cases hvalid : validDomainChar ascii.toLower = false
    · rw [if_pos hvalid] at h
      rcases Option.some.inj h with rfl
      exact ⟨rfl, fun a l2 hl g hg => Or.inl ⟨l2, hl, hg⟩⟩
    · have hvalid2 : validDomainChar ascii.toLower = true := by
        cases hb : validDomainChar ascii.toLower with
        | false => exact absurd hb hvalid
        | true => rfl
      rw [if_neg hvalid] at h
      rcases Option.some.inj h with rfl
      refine ⟨rfl, fun a l2 hl g hg => ?_⟩
      rcases mem_insertRev_spec st.asciiToGlyph ascii.toLower glyph a l2 hl g hg with
        h1 | h2
      · exact Or.inl h1
      · exact Or.inr ⟨h2.1, h2.2, hvalid2⟩

theorem addStringAscii_invalid_drop (st : TableState) (key : List Char) (ascii : Char)
    (hascii : ascii.toNat ≤ 127) (hinvalid : validDomainChar ascii = false) :
    addStringAscii st key ascii = some st := by
  have hlow := not_valid_toLower hinvalid
  have hle := char_toLower_toNat_le hascii
  rw [addStringAscii, if_neg (by omega), if_pos hlow]

theorem addAsciiString_invalid_drop (st : TableState) (ascii glyph : Char)
    (hascii : ascii.toNat ≤ 127) (hinvalid : validDomainChar ascii = false) :
    addAsciiString st ascii glyph = some st := by
  have hlow := not_valid_toLower hinvalid
  have hle := char_toLower_toNat_le hascii
  rw [addAsciiString, if_neg (by omega), if_pos hlow]

/-! ### Table construction invariants -/

/-- Round-trip invariant: every glyph of a reverse-table entry is a
single-rune key of the forward table mapping back to the reverse key. -/
def RevFwdInv (st : TableState) : Prop :=
  ∀ a l, alookup st.asciiToGlyph a = some l → ∀ g ∈ l,
    ∃ fl, alookup st.glyphToAscii [g] = some fl ∧ a ∈ fl

/-- Forward-table invariant: every stored target is a lowercase
domain-valid character. -/
def FwdValidInv (st : TableState) : Prop :=
  ∀ k l, alookup st.glyphToAscii k = some l → ∀ a ∈ l, validLowerDomainChar a = true

theorem initState_revFwdInv : RevFwdInv initState := fun _ _ hl =>
  absurd hl (Option.noConfusion)

theorem initState_fwdValidInv : FwdValidInv initState := fun _ _ hl =>
  absurd hl (Option.noConfusion)

theorem applyOp_revFwdInv {st st' : TableState} {op : BuildOp}
    (h : applyOp st op = some st') (hinv : RevFwdInv st) : RevFwdInv st' := by
  cases op with
  | fwdOnly key ascii =>
    obtain ⟨hrev, _, hmono, _⟩ := addStringAscii_spec h
    intro a l hl g hg
    rw [hrev] at hl
    exact hmono [g] a (hinv a l hl g hg)
  | pair ascii glyph =>
    rw [applyOp] at h
    cases h1 : addStringAscii st [glyph] ascii with
    | none => rw [h1] at h; exact absurd h (Option.noConfusion)
    | some st1 =>
      rw [h1] at h
      simp only [Option.some_bind] at h
      obtain ⟨hrev1, hmem1, hmono1, _⟩ := addStringAscii_spec h1
      obtain ⟨hfwd2, hrevspec⟩ := addAsciiString_spec h
      intro a l hl g hg
      rcases hrevspec a l hl g hg with hold | hnew
      · obtain ⟨l0, hl0, hg0⟩ := hold
        rw [hrev1] at hl0
        have hfw := hinv a l0 hl0 g hg0
        rw [hfwd2]
        exact hmono1 [g] a hfw
      · obtain ⟨ha, hgg, hvalid⟩ := hnew
        subst ha
        subst hgg
        rw [hfwd2]
        exact hmem1 hvalid

theorem applyOp_fwdValidInv {st st' : TableState} {op : BuildOp}
    (h : applyOp st op = some st') (hinv : FwdValidInv st) : FwdValidInv st' := by
  cases op with
  | fwdOnly key ascii =>
    obtain ⟨_, _, _, hvals⟩ := addStringAscii_spec h
    intro k l hl a ha
    rcases hvals k l hl a ha with hold | hnew
    · obtain ⟨l0, hl0, ha0⟩ := hold
      exact hinv k l0 hl0 a ha0
    · rw [hnew.1]
      exact validLower_of_valid_toLower ascii hnew.2
  | pair ascii glyph =>
    rw [applyOp] at h
    cases h1 : addStringAscii st [glyph] ascii with
    | none => rw [h1] at h; exact absurd h (Option.noConfusion)
    | some st1 =>
      rw [h1] at h
      simp only [Option.some_bind] at h
      obtain ⟨_, _, _, hvals⟩ := addStringAscii_spec h1
      obtain ⟨hfwd2, _⟩ := addAsciiString_spec h
      intro k l hl a ha
      rw [hfwd2] at hl
      rcases hvals k l hl a ha with hold | hnew
      · obtain ⟨l0, hl0, ha0⟩ := hold
        exact hinv k l0 hl0 a ha0
      · rw [hnew.1]
        exact validLower_of_valid_toLower ascii hnew.2

theorem buildTables_inv : ∀ (ops : List BuildOp) (st0 st : TableState),
    buildTables st0 ops = some st → RevFwdInv st0 → FwdValidInv st0 →
    RevFwdInv st ∧ FwdValidInv st := by
  intro ops
  induction ops with
  | nil =>
    intro st0 st h h1 h2
    rcases Option.some.inj h with rfl
    exact ⟨h1, h2⟩
  | cons op rest ih =>
    intro st0 st h h1 h2
    rw [buildTables] at h
    cases hop : applyOp st0 op with
    | none => rw [hop] at h; exact absurd h (Option.noConfusion)
    | some st1 =>
      rw [hop] at h
      simp only [Option.some_bind] at h
      exact ih st1 st h (applyOp_revFwdInv hop h1) (applyOp_fwdValidInv hop h2)

/-! ### Claims about the tables -/

/-- C6: every depth-1 mutation against a built reverse table round-trips
through the built forward table: the candidate is the domain with one
position changed from its original rune r to a glyph g drawn from the
reverse entry of r, g is a key of the forward table, and its target list
contains r. -/
theorem C6_round_trip (ops : List BuildOp) (st : TableState)
    (hbuild : buildTables initState ops = some st) (domain : List Char) :
    ∀ s ∈ homoglyphPermutations (alookup st.asciiToGlyph) domain 0 0 1,
      ∃ idx r g alts, domain[idx]? = some r ∧ s = domain.set idx g
        ∧ alookup st.asciiToGlyph r = some alts ∧ g ∈ alts
        ∧ ∃ fl, alookup st.glyphToAscii [g] = some fl ∧ r ∈ fl := by
  intro s hs
  have hinv : RevFwdInv st :=
    (buildTables_inv ops initState st hbuild initState_revFwdInv initState_fwdValidInv).1
  by_cases hstop : (1 : Nat) ≤ 0 ∨ utf8Len domain ≤ 0
  · rw [homoglyphPermutations_eq_nil hstop] at hs
    exact absurd hs (List.not_mem_nil _)
  · push_neg at hstop
    rcases (mem_homoglyphPermutations_iff hstop.1 hstop.2).mp hs with
      ⟨idx, r, alts, g, _, hget, htbl, hg, hcase⟩
    rcases hcase with heq | hrec
    · exact ⟨idx, r, g, alts, hget, heq, htbl, hg, hinv r alts htbl g hg⟩
    · rw [homoglyphPermutations_eq_nil (Or.inl (Nat.le_refl 1))] at hrec
      exact absurd hrec (List.not_mem_nil _)

def opsC6 : List BuildOp := [BuildOp.pair 'a' 'а']

def stC6 : TableState := ⟨[(['а'], ['a'])], [('a', ['а'])], []⟩

theorem C6_witness :
    (buildTables initState opsC6 = some stC6)
    ∧ ∀ s ∈ homoglyphPermutations (alookup stC6.asciiToGlyph) ("ab" : String).data 0 0 1,
        ∃ idx r g alts, (("ab" : String).data)[idx]? = some r
          ∧ s = ("ab" : String).data.set idx g
          ∧ alookup stC6.asciiToGlyph r = some alts ∧ g ∈ alts
          ∧ ∃ fl, alookup stC6.glyphToAscii [g] = some fl ∧ r ∈ fl :=
  ⟨by decide, C6_round_trip opsC6 stC6 (by decide) ("ab" : String).data⟩

/-- C7: after any successful build from the empty state, every target
stored in the forward table is a lowercase domain-valid character, and
an (ascii, glyph) pair whose ASCII target is not domain-valid (targets
from the three data sources are always ASCII) is silently dropped by
both add functions, leaving the state unchanged. -/
theorem C7_invalid_targets_dropped :
    (∀ ops st, buildTables initState ops = some st →
      ∀ k l, alookup st.glyphToAscii k = some l → ∀ a ∈ l,
        validLowerDomainChar a = true)
    ∧ ∀ (st : TableState) (key : List Char) (ascii glyph : Char),
        ascii.toNat ≤ 127 → validDomainChar ascii = false →
          addStringAscii st key ascii = some st
          ∧ addAsciiString st ascii glyph = some st := by
  constructor
  · intro ops st h
    exact (buildTables_inv ops initState st h initState_revFwdInv
      initState_fwdValidInv).2
  · intro st key ascii glyph h1 h2
    exact ⟨addStringAscii_invalid_drop st key ascii h1 h2,
      addAsciiString_invalid_drop st ascii glyph h1 h2⟩

def opsC7 : List BuildOp := [BuildOp.pair 'A' 'Я']

def stC7 : TableState := ⟨[(['Я'], ['a'])], [('a', ['Я'])], []⟩

theorem C7_witness :
    ((buildTables initState opsC7 = some stC7)
      ∧ ∀ k l, alookup stC7.glyphToAscii k = some l → ∀ a ∈ l,
          validLowerDomainChar a = true)
    ∧ ((('!' : Char).toNat ≤ 127 ∧ validDomainChar '!' = false)
      ∧ addStringAscii initState ['¡'] '!' = some initState
      ∧ addAsciiString initState '!' '¡' = some initState) :=
  ⟨⟨by decide, C7_invalid_targets_dropped.1 opsC7 stC7 (by decide)⟩,
    ⟨⟨by decide, by decide⟩,
      C7_invalid_targets_dropped.2 initState ['¡'] '!' '¡' (by decide) (by decide)⟩⟩

end CertSearcher
